import Mathlib

/-!
Shallow embedding of the record-transformation functions of
`seqmagick/transform.py`, together with proofs that the transforms meet
(or deviate from) their natural-language specification.

Records model Biopython `SeqRecord` objects: a sequence (with its
alphabet), an id, a name, a description, and (letter) annotations.
Generator functions over lazy record streams are embedded as functions
over `List SeqRecord`; exceptions are embedded with `Except`.
-/

/-- Model of a Biopython `Seq`: the character data plus its alphabet
(the alphabet object is modelled by a label string). -/
structure BioSeq where
  chars : List Char
  alphabet : String
deriving DecidableEq

/-- The label of the default `Alphabet()` a `Seq` receives when it is
constructed without an explicit alphabet argument. -/
def defaultAlphabet : String := "Alphabet()"

/-- Default `name` of a Biopython `SeqRecord` when none is passed. -/
def unknownName : String := "<unknown name>"

/-- Model of a Biopython `SeqRecord`. -/
structure SeqRecord where
  seq : BioSeq
  id : String
  name : String
  description : String
  annotations : List (String × String)
  letter_annotations : List (String × String)
deriving DecidableEq

/-- `GAP_CHARS = "-."` from transform.py line 21: characters to be
treated as gaps. -/
def GAP_CHARS : String := "-."

/-- Errors raised by `gap_proportion`: the explicit `ValueError` for a
length mismatch (carrying the unexpected length), and the
`UnboundLocalError` hit on an empty stream when `i + 1` is evaluated
although the loop variable `i` was never bound. -/
inductive GPError where
  | lengthMismatch (len : Nat)
  | unboundLocal
deriving DecidableEq

/-- One step of the gap-counting loop of `gap_proportion`: for each
position `j` of the sequence, `gaps[j] += 1` when the character at `j`
is in `gap_chars`. -/
def updateGaps (gap_chars : List Char) (gaps : List Nat) (s : List Char) : List Nat :=
  List.zipWith (fun g c => if gap_chars.contains c then g + 1 else g) gaps s

/-- The loop of `gap_proportion` over the records after the first:
checks each record against the alignment length `aln_len`, accumulates
gap counts, and counts records. -/
def gpGo (gap_chars : List Char) (aln_len : Nat) :
    List SeqRecord → List Nat → Nat → Except GPError (List Nat × Nat)
  | [], gaps, count => .ok (gaps, count)
  | r :: rest, gaps, count =>
    if r.seq.chars.length = aln_len then
      gpGo gap_chars aln_len rest (updateGaps gap_chars gaps r.seq.chars) (count + 1)
    else
      .error (.lengthMismatch r.seq.chars.length)

/-- `gap_proportion(sequences, gap_chars)` (transform.py 414-437,
gap_chars defaulting to the dash):
produces one gap proportion per alignment column, failing with a
`ValueError` on a record whose length differs from the first record,
and with an `UnboundLocalError` on an empty stream. -/
def gap_proportion (sequences : List SeqRecord) (gap_chars : List Char) :
    Except GPError (List ℚ) :=
  match sequences with
  | [] => .error .unboundLocal
  | first :: rest =>
    let aln_len := first.seq.chars.length
    match gpGo gap_chars aln_len rest
        (updateGaps gap_chars (List.replicate aln_len 0) first.seq.chars) 1 with
    | .error e => .error e
    | .ok (gaps, count) => .ok (gaps.map (fun (g : Nat) => (g : ℚ) / (count : ℚ)))

/-- `itertools.compress(data, selectors)`: keep the data elements whose
selector is true, truncating at the shorter of the two lists. -/
def compress (data : List Char) (selectors : List Bool) : List Char :=
  (data.zip selectors).filterMap (fun p => if p.2 then some p.1 else none)

/-- `squeeze(records, gap_threshold, sequence_iterator)` (transform.py
440-458): compute gap proportions over the statistics stream, keep the
columns whose proportion is below the threshold, and rebuild each
primary record as `SeqRecord(Seq(squeezed), id=..., description=...)`. -/
def squeeze (records : List SeqRecord) (gap_threshold : ℚ)
    (sequence_iterator : List SeqRecord) : Except GPError (List SeqRecord) :=
  match gap_proportion sequence_iterator ['-'] with
  | .error e => .error e
  | .ok gap_proportions =>
    let keep_columns := gap_proportions.map (fun g => decide (g < gap_threshold))
    .ok (records.map (fun r =>
      ⟨⟨compress r.seq.chars keep_columns, defaultAlphabet⟩,
        r.id, unknownName, r.description, [], []⟩))

/-- Whether record `r` carries a gap character (from `gap_chars`) at
column `j`. -/
def hasGapAt (gap_chars : List Char) (r : SeqRecord) (j : Nat) : Bool :=
  match r.seq.chars[j]? with
  | some c => gap_chars.contains c
  | none => false

/-- Number of records of `stats` carrying a gap character at column `j`. -/
def colGapCount (gap_chars : List Char) (stats : List SeqRecord) (j : Nat) : Nat :=
  (stats.filter (fun r => hasGapAt gap_chars r j)).length

/-- The gap proportion of column `j` of the alignment `stats`, as the
specification defines it: records with a gap at `j` over total records. -/
def specPropAt (stats : List SeqRecord) (j : Nat) : ℚ :=
  (colGapCount ['-'] stats j : ℚ) / (stats.length : ℚ)

/-- The column selection the specification describes for `squeeze`:
walking the sequence left to right (column index `j`), keep exactly the
characters of columns whose gap proportion over `stats` is strictly
below the threshold. -/
def keepCols (stats : List SeqRecord) (t : ℚ) : List Char → Nat → List Char
  | [], _ => []
  | c :: cs, j =>
    if specPropAt stats j < t then c :: keepCols stats t cs (j + 1)
    else keepCols stats t cs (j + 1)

theorem updateGaps_getElem? (gap_chars : List Char) :
    ∀ (gaps : List Nat) (s : List Char) (j : Nat),
      (updateGaps gap_chars gaps s)[j]? =
        gaps[j]?.bind (fun g => s[j]?.map
          (fun c => if gap_chars.contains c then g + 1 else g))
  | [], s, j => by simp [updateGaps]
  | g :: gs, [], j => by simp [updateGaps]
  | g :: gs, c :: cs, 0 => by simp [updateGaps]
  | g :: gs, c :: cs, j + 1 => by
    simpa [updateGaps] using updateGaps_getElem? gap_chars gs cs j

theorem updateGaps_length (gap_chars : List Char) (gaps : List Nat) (s : List Char) :
    (updateGaps gap_chars gaps s).length = min gaps.length s.length := by
  simp [updateGaps]

theorem colGapCount_cons (gap_chars : List Char) (r : SeqRecord)
    (rest : List SeqRecord) (j : Nat) :
    colGapCount gap_chars (r :: rest) j =
      (if hasGapAt gap_chars r j then 1 else 0) + colGapCount gap_chars rest j := by
  by_cases h : hasGapAt gap_chars r j
  · simp [colGapCount, List.filter_cons, h]
    omega
  · simp [colGapCount, List.filter_cons, h]

theorem foldl_updateGaps_length (gap_chars : List Char) (L : Nat) :
    ∀ (recs : List SeqRecord) (gaps : List Nat),
      gaps.length = L → (∀ r ∈ recs, r.seq.chars.length = L) →
      (recs.foldl (fun g r => updateGaps gap_chars g r.seq.chars) gaps).length = L
  | [], gaps, hg, _ => hg
  | r :: rest, gaps, hg, hr => by
    rw [List.foldl_cons]
    exact foldl_updateGaps_length gap_chars L rest _
      (by rw [updateGaps_length, hg, hr r (by simp)]; simp)
      (fun x hx => hr x (by simp [hx]))

theorem foldl_updateGaps_getElem? (gap_chars : List Char) (L : Nat) :
    ∀ (recs : List SeqRecord) (gaps : List Nat),
      gaps.length = L → (∀ r ∈ recs, r.seq.chars.length = L) →
      ∀ j, j < L →
        (recs.foldl (fun g r => updateGaps gap_chars g r.seq.chars) gaps)[j]? =
          gaps[j]?.map (fun g => g + colGapCount gap_chars recs j)
  | [], gaps, _, _, j, _ => by
    cases h : gaps[j]? <;> simp [colGapCount, h]
  | r :: rest, gaps, hg, hr, j, hj => by
    rw [List.foldl_cons]
    have hrL : r.seq.chars.length = L := hr r (by simp)
    have hg' : (updateGaps gap_chars gaps r.seq.chars).length = L := by
      rw [updateGaps_length, hg, hrL]; simp
    rw [foldl_updateGaps_getElem? gap_chars L rest _ hg'
      (fun x hx => hr x (by simp [hx])) j hj]
    rw [updateGaps_getElem? gap_chars gaps r.seq.chars j]
    have hjg : j < gaps.length := by omega
    have hjs : j < r.seq.chars.length := by omega
    obtain ⟨g, hgsome⟩ : ∃ g, gaps[j]? = some g :=
      ⟨gaps[j], (List.getElem?_eq_some_iff).2 ⟨hjg, rfl⟩⟩
    obtain ⟨c, hcsome⟩ : ∃ c, r.seq.chars[j]? = some c :=
      ⟨r.seq.chars[j], (List.getElem?_eq_some_iff).2 ⟨hjs, rfl⟩⟩
    rw [colGapCount_cons]
    simp only [hgsome, hcsome, Option.some_bind, Option.map_some', hasGapAt]
    refine congrArg some ?_
    cases hc : gap_chars.contains c
    · simp
    · simp
      omega

theorem gpGo_ok (gap_chars : List Char) (L : Nat) :
    ∀ (recs : List SeqRecord) (gaps : List Nat) (count : Nat),
      (∀ r ∈ recs, r.seq.chars.length = L) →
      gpGo gap_chars L recs gaps count =
        .ok (recs.foldl (fun g r => updateGaps gap_chars g r.seq.chars) gaps,
          count + recs.length)
  | [], gaps, count, _ => by simp [gpGo]
  | r :: rest, gaps, count, h => by
    have hrL : r.seq.chars.length = L := h r (by simp)
    rw [gpGo, if_pos hrL, gpGo_ok gap_chars L rest _ (count + 1)
      (fun x hx => h x (by simp [hx]))]
    simp [List.foldl_cons]
    omega

theorem gpGo_error (gap_chars : List Char) (L : Nat) :
    ∀ (recs : List SeqRecord) (gaps : List Nat) (count : Nat),
      (∃ r ∈ recs, r.seq.chars.length ≠ L) →
      ∃ n, gpGo gap_chars L recs gaps count = .error (.lengthMismatch n)
  | [], _, _, h => by simp at h
  | r :: rest, gaps, count, h => by
    by_cases hrL : r.seq.chars.length = L
    · have : ∃ x ∈ rest, x.seq.chars.length ≠ L := by
        obtain ⟨x, hx, hxL⟩ := h
        rcases List.mem_cons.1 hx with rfl | hx'
        · exact absurd hrL hxL
        · exact ⟨x, hx', hxL⟩
      obtain ⟨n, hn⟩ := gpGo_error gap_chars L rest
        (updateGaps gap_chars gaps r.seq.chars) (count + 1) this
      exact ⟨n, by rw [gpGo, if_pos hrL, hn]⟩
    · exact ⟨r.seq.chars.length, by rw [gpGo, if_neg hrL]⟩

/-- Shared success characterisation of `gap_proportion` on a non-empty,
uniform-length stream: it returns one proportion per column, equal to
the column gap count over the record count. -/
theorem gap_proportion_ok (gap_chars : List Char) (first : SeqRecord)
    (rest : List SeqRecord)
    (h : ∀ r ∈ first :: rest, r.seq.chars.length = first.seq.chars.length) :
    ∃ props, gap_proportion (first :: rest) gap_chars = .ok props ∧
      props.length = first.seq.chars.length ∧
      ∀ j, j < first.seq.chars.length →
        props[j]? = some ((colGapCount gap_chars (first :: rest) j : ℚ) /
          ((first :: rest).length : ℚ)) := by
  have hrest : ∀ r ∈ rest, r.seq.chars.length = first.seq.chars.length :=
    fun r hr => h r (by simp [hr])
  have hrepl : (List.replicate first.seq.chars.length (0 : Nat)).length =
      first.seq.chars.length := by simp
  have hfold :
      gpGo gap_chars first.seq.chars.length rest
        (updateGaps gap_chars (List.replicate first.seq.chars.length 0)
          first.seq.chars) 1 =
        .ok (rest.foldl (fun g r => updateGaps gap_chars g r.seq.chars)
            (updateGaps gap_chars (List.replicate first.seq.chars.length 0)
              first.seq.chars),
          1 + rest.length) := by
    rw [gpGo_ok gap_chars first.seq.chars.length rest _ 1 hrest]
  refine ⟨((first :: rest).foldl (fun g r => updateGaps gap_chars g r.seq.chars)
      (List.replicate first.seq.chars.length 0)).map
      (fun (g : Nat) => (g : ℚ) / ((1 + rest.length : Nat) : ℚ)), ?_, ?_, ?_⟩
  · simp only [gap_proportion]
    rw [hfold, List.foldl_cons]
  · rw [List.length_map]
    exact foldl_updateGaps_length gap_chars first.seq.chars.length (first :: rest) _
      hrepl h
  · intro j hj
    rw [List.getElem?_map]
    rw [foldl_updateGaps_getElem? gap_chars first.seq.chars.length (first :: rest) _
      hrepl h j hj]
    rw [List.getElem?_replicate, if_pos hj]
    have hlen : ((1 + rest.length : Nat) : ℚ) = ((first :: rest).length : ℚ) := by
      simp [Nat.add_comm]
    simp only [Option.map_some']
    rw [hlen]
    norm_num

theorem compress_cons (c : Char) (cs : List Char) (b : Bool) (bs : List Bool) :
    compress (c :: cs) (b :: bs) =
      if b then c :: compress cs bs else compress cs bs := by
  by_cases hb : b <;> simp [compress, hb]

theorem compress_eq_keepCols (stats : List SeqRecord) (t : ℚ) :
    ∀ (s : List Char) (props : List ℚ) (j : Nat),
      s.length = props.length →
      (∀ i, i < props.length → props[i]? = some (specPropAt stats (j + i))) →
      compress s (props.map (fun g => decide (g < t))) = keepCols stats t s j
  | [], props, j, _, _ => by simp [compress, keepCols]
  | c :: cs, [], j, hlen, _ => by simp at hlen
  | c :: cs, p :: ps, j, hlen, hprops => by
    have hp : p = specPropAt stats j := by
      have h0 := hprops 0 (by simp)
      simpa using h0
    have hps : ∀ i, i < ps.length → ps[i]? = some (specPropAt stats ((j + 1) + i)) := by
      intro i hi
      have hstep := hprops (i + 1) (by simpa using Nat.succ_lt_succ hi)
      have hidx : j + (i + 1) = (j + 1) + i := by omega
      rw [hidx] at hstep
      simpa using hstep
    have hrec := compress_eq_keepCols stats t cs ps (j + 1) (by simpa using hlen) hps
    by_cases hlt : specPropAt stats j < t
    · simp [compress_cons, keepCols, hp, hlt, hrec]
    · simp [compress_cons, keepCols, hp, hlt, hrec]

/-- C1: for a uniform-length alignment (primary stream and statistics
stream all of the first statistics record's length), `squeeze` succeeds
and each output record's sequence keeps, in their original relative
order, exactly the columns whose gap proportion over the statistics
stream is strictly below the threshold; the columns with proportion at
or above the threshold are dropped. -/
theorem squeeze_spec (records : List SeqRecord) (t : ℚ) (first : SeqRecord)
    (rest : List SeqRecord)
    (hstats : ∀ r ∈ first :: rest, r.seq.chars.length = first.seq.chars.length)
    (hrecords : ∀ r ∈ records, r.seq.chars.length = first.seq.chars.length) :
    ∃ out, squeeze records t (first :: rest) = .ok out ∧
      List.Forall₂
        (fun r o => o.seq.chars = keepCols (first :: rest) t r.seq.chars 0)
        records out := by
  obtain ⟨props, hok, hlen, hpt⟩ := gap_proportion_ok ['-'] first rest hstats
  have hprop0 : ∀ i, i < props.length →
      props[i]? = some (specPropAt (first :: rest) (0 + i)) := by
    intro i hi
    rw [Nat.zero_add, hpt i (by omega)]
    rfl
  refine ⟨records.map (fun r =>
      (⟨⟨compress r.seq.chars (props.map (fun g => decide (g < t))), defaultAlphabet⟩,
        r.id, unknownName, r.description, [], []⟩ : SeqRecord)), ?_, ?_⟩
  · simp only [squeeze]
    rw [hok]
  · clear hok
    induction records with
    | nil => exact List.Forall₂.nil
    | cons r rs ih =>
      refine List.Forall₂.cons ?_ (ih (fun x hx => hrecords x (by simp [hx])))
      exact compress_eq_keepCols (first :: rest) t r.seq.chars props 0
        ((hrecords r (by simp)).trans hlen.symm) hprop0

def wsFirst : SeqRecord := ⟨⟨['A', '-'], defaultAlphabet⟩, "s1", unknownName, "", [], []⟩

def wsSecond : SeqRecord := ⟨⟨['-', '-'], defaultAlphabet⟩, "s2", unknownName, "", [], []⟩

def wsPrimary : SeqRecord :=
  ⟨⟨['C', 'A'], defaultAlphabet⟩, "p1", unknownName, "desc", [], []⟩

/-- Witness for `squeeze_spec` on a concrete two-record alignment. -/
theorem squeeze_spec_witness :
    (∀ r ∈ wsFirst :: [wsSecond], r.seq.chars.length = wsFirst.seq.chars.length) ∧
    (∀ r ∈ [wsPrimary], r.seq.chars.length = wsFirst.seq.chars.length) ∧
    ∃ out, squeeze [wsPrimary] ((3 : ℚ) / 5) (wsFirst :: [wsSecond]) = .ok out ∧
      List.Forall₂
        (fun r o => o.seq.chars =
          keepCols (wsFirst :: [wsSecond]) ((3 : ℚ) / 5) r.seq.chars 0)
        [wsPrimary] out :=
  ⟨by decide, by decide,
    squeeze_spec [wsPrimary] ((3 : ℚ) / 5) wsFirst [wsSecond] (by decide) (by decide)⟩

/-- C2: on a non-empty stream whose records all share the first
record's length, `gap_proportion` returns one value per column equal to
the number of records with a gap character at that column divided by
the record count; on a stream containing a record of deviating length
it fails with a length-mismatch error. -/
theorem gap_proportion_spec (first : SeqRecord) (rest : List SeqRecord) :
    ((∀ r ∈ first :: rest, r.seq.chars.length = first.seq.chars.length) →
      ∃ props, gap_proportion (first :: rest) ['-'] = .ok props ∧
        props.length = first.seq.chars.length ∧
        ∀ j, j < first.seq.chars.length →
          props[j]? = some ((colGapCount ['-'] (first :: rest) j : ℚ) /
            ((first :: rest).length : ℚ))) ∧
    ((∃ r ∈ first :: rest, r.seq.chars.length ≠ first.seq.chars.length) →
      ∃ n, gap_proportion (first :: rest) ['-'] = .error (.lengthMismatch n)) := by
  constructor
  · intro h
    exact gap_proportion_ok ['-'] first rest h
  · intro h
    obtain ⟨r, hr, hrne⟩ := h
    have hbad : ∃ x ∈ rest, x.seq.chars.length ≠ first.seq.chars.length := by
      rcases List.mem_cons.1 hr with rfl | hx
      · exact absurd rfl hrne
      · exact ⟨r, hx, hrne⟩
    obtain ⟨n, hn⟩ := gpGo_error ['-'] first.seq.chars.length rest _ 1 hbad
    exact ⟨n, by simp only [gap_proportion]; rw [hn]⟩

def wgRec (i : String) (s : List Char) : SeqRecord :=
  ⟨⟨s, defaultAlphabet⟩, i, unknownName, "", [], []⟩

/-- Witness for `gap_proportion_spec`: the success half on a 4-record
alignment of length 6 with gaps at column 0 in two records, and the
failure half on a stream with a deviating record length. -/
theorem gap_proportion_spec_witness :
    (∃ props,
      gap_proportion
        (wgRec "g1" ['-', 'A', 'C', 'G', 'T', 'A'] ::
          [wgRec "g2" ['A', 'A', 'C', 'G', 'T', 'A'],
           wgRec "g3" ['-', 'A', 'C', 'G', 'T', 'A'],
           wgRec "g4" ['T', 'T', 'T', 'T', 'T', 'T']]) ['-'] = .ok props ∧
      props.length = (wgRec "g1" ['-', 'A', 'C', 'G', 'T', 'A']).seq.chars.length ∧
      ∀ j, j < (wgRec "g1" ['-', 'A', 'C', 'G', 'T', 'A']).seq.chars.length →
        props[j]? = some
          ((colGapCount ['-']
            (wgRec "g1" ['-', 'A', 'C', 'G', 'T', 'A'] ::
              [wgRec "g2" ['A', 'A', 'C', 'G', 'T', 'A'],
               wgRec "g3" ['-', 'A', 'C', 'G', 'T', 'A'],
               wgRec "g4" ['T', 'T', 'T', 'T', 'T', 'T']]) j : ℚ) /
          ((wgRec "g1" ['-', 'A', 'C', 'G', 'T', 'A'] ::
            [wgRec "g2" ['A', 'A', 'C', 'G', 'T', 'A'],
             wgRec "g3" ['-', 'A', 'C', 'G', 'T', 'A'],
             wgRec "g4" ['T', 'T', 'T', 'T', 'T', 'T']]).length : ℚ))) ∧
    (∃ n, gap_proportion
        (wgRec "b1" ['A', 'C'] :: [wgRec "b2" ['A', 'C', 'G']]) ['-'] =
      .error (.lengthMismatch n)) :=
  ⟨(gap_proportion_spec (wgRec "g1" ['-', 'A', 'C', 'G', 'T', 'A'])
      [wgRec "g2" ['A', 'A', 'C', 'G', 'T', 'A'],
       wgRec "g3" ['-', 'A', 'C', 'G', 'T', 'A'],
       wgRec "g4" ['T', 'T', 'T', 'T', 'T', 'T']]).1 (by decide),
   (gap_proportion_spec (wgRec "b1" ['A', 'C'])
      [wgRec "b2" ['A', 'C', 'G']]).2 (by decide)⟩

/-- C9: `gap_proportion` on an empty stream fails with the
unbound-local-variable error (the loop index is never bound before
`i + 1` is computed), and so does `squeeze` when its statistics
iterator is empty; neither an empty vector nor a length-mismatch error
results. -/
theorem gap_proportion_empty_unbound (records : List SeqRecord) (t : ℚ)
    (gap_chars : List Char) :
    gap_proportion [] gap_chars = .error .unboundLocal ∧
    squeeze records t [] = .error .unboundLocal :=
  ⟨rfl, rfl⟩

/-- C10: every record emitted by `squeeze` consists of the squeezed
sequence plus the input record's id and description only; the output
name, annotations and letter annotations are the `SeqRecord` defaults
and the output sequence carries the default alphabet, regardless of the
corresponding input fields. -/
theorem squeeze_output_fields (records stats : List SeqRecord) (t : ℚ)
    (out : List SeqRecord) (hok : squeeze records t stats = .ok out) :
    ∀ (i : Nat) (r r' : SeqRecord), records[i]? = some r → out[i]? = some r' →
      r'.id = r.id ∧ r'.description = r.description ∧
      r'.name = unknownName ∧ r'.annotations = [] ∧
      r'.letter_annotations = [] ∧ r'.seq.alphabet = defaultAlphabet := by
  intro i r r' hri hoi
  rcases hgp : gap_proportion stats ['-'] with e | props
  · simp only [squeeze, hgp] at hok
    exact Except.noConfusion hok
  · simp only [squeeze, hgp, Except.ok.injEq] at hok
    subst hok
    rw [List.getElem?_map, hri, Option.map_some'] at hoi
    have hr' := Option.some.inj hoi
    subst hr'
    exact ⟨rfl, rfl, rfl, rfl, rfl, rfl⟩

/-- Witness for `squeeze_output_fields` on a concrete run: the single
output record keeps id and description and resets the other fields. -/
theorem squeeze_output_fields_witness :
    squeeze [wsPrimary] ((1 : ℚ) / 2) [wsFirst] =
      .ok [⟨⟨['C'], defaultAlphabet⟩, "p1", unknownName, "desc", [], []⟩] ∧
    ∀ (i : Nat) (r r' : SeqRecord), [wsPrimary][i]? = some r →
      [(⟨⟨['C'], defaultAlphabet⟩, "p1", unknownName, "desc", [], []⟩ :
        SeqRecord)][i]? = some r' →
      r'.id = r.id ∧ r'.description = r.description ∧
      r'.name = unknownName ∧ r'.annotations = [] ∧
      r'.letter_annotations = [] ∧ r'.seq.alphabet = defaultAlphabet := by
  have hok : squeeze [wsPrimary] ((1 : ℚ) / 2) [wsFirst] =
      .ok [⟨⟨['C'], defaultAlphabet⟩, "p1", unknownName, "desc", [], []⟩] := by
    norm_num +decide [squeeze, gap_proportion, gpGo, updateGaps, compress,
      wsFirst, wsPrimary, List.replicate_succ, List.zipWith_cons_cons,
      List.zip_cons_cons, List.filterMap_cons, Function.comp]
  exact ⟨hok, squeeze_output_fields [wsPrimary] [wsFirst] ((1 : ℚ) / 2) _ hok⟩

/-- Replace the value of the first entry carrying `key` (models mutating
the list object stored in the Python dict in place). -/
def assocUpdate {β : Type} : List (String × β) → String → β → List (String × β)
  | [], _, _ => []
  | (k, w) :: rest, key, v =>
    if k = key then (k, v) :: rest else (k, w) :: assocUpdate rest key v

/-- The loop of `deduplicate_sequences` (transform.py 64-83): for each
record look up `checksum_sequences[checksum]` (a `defaultdict(list)`),
yield the record when the list is empty, and append the record id to
the list. The accumulator is the dict as an insertion-ordered
association list; the second component of the result is its final
state, from which the optional report is written. -/
def dedupGo (checksum : List Char → String) :
    List SeqRecord → List (String × List String) →
    List SeqRecord × List (String × List String)
  | [], acc => ([], acc)
  | r :: rest, acc =>
    let key := checksum r.seq.chars
    let sequences := (acc.lookup key).getD []
    let acc' := if (acc.lookup key).isSome
                then assocUpdate acc key (sequences ++ [r.id])
                else acc ++ [(key, sequences ++ [r.id])]
    let res := dedupGo checksum rest acc'
    if sequences.isEmpty then (r :: res.1, res.2) else res

/-- `deduplicate_sequences(records, out_file)`: the emitted record
stream together with the checksum-to-ids groups that the side report
writes (one line per key) when a report sink is supplied. The seguid
checksum is an external collaborator, taken as a parameter. -/
def deduplicate_sequences (checksum : List Char → String)
    (records : List SeqRecord) :
    List SeqRecord × List (String × List String) :=
  dedupGo checksum records []

/-- The behaviour the specification describes: emit a record exactly
when its checksum key has not been seen before, in input order. -/
def specFirstByKey (checksum : List Char → String) :
    List SeqRecord → List String → List SeqRecord
  | [], _ => []
  | r :: rest, seen =>
    if checksum r.seq.chars ∈ seen then specFirstByKey checksum rest seen
    else r :: specFirstByKey checksum rest (checksum r.seq.chars :: seen)

theorem lookup_append {β : Type} (l1 l2 : List (String × β)) (k : String) :
    (l1 ++ l2).lookup k = (l1.lookup k).or (l2.lookup k) := by
  induction l1 with
  | nil => simp
  | cons p l1 ih =>
    obtain ⟨a, b⟩ := p
    by_cases h : k = a
    · have hb : (k == a) = true := by simp [h]
      simp [List.lookup, hb]
    · have hb : (k == a) = false := by simp [h]
      simp [List.lookup, hb, ih]

theorem lookup_assocUpdate {β : Type} (l : List (String × β)) (key : String)
    (v : β) (k : String) :
    (assocUpdate l key v).lookup k =
      if k = key then (l.lookup k).map (fun _ => v) else l.lookup k := by
  induction l with
  | nil => simp [assocUpdate]
  | cons p l ih =>
    obtain ⟨a, b⟩ := p
    by_cases hk : k = a
    · subst hk
      have hb : (k == k) = true := by simp
      by_cases ha : k = key
      · subst ha
        simp [assocUpdate, List.lookup, hb]
      · simp [assocUpdate, List.lookup, hb, ha]
    · have hb : (k == a) = false := by simp [hk]
      by_cases ha : a = key
      · subst ha
        simp [assocUpdate, List.lookup, hb, hk]
      · simp [assocUpdate, List.lookup, hb, ha, ih]

theorem dedupGo_fst (checksum : List Char → String) (records : List SeqRecord) :
    ∀ (acc : List (String × List String)) (seen : List String),
      (∀ k, k ∈ seen ↔ ∃ ids, acc.lookup k = some ids ∧ ids ≠ []) →
      (dedupGo checksum records acc).1 = specFirstByKey checksum records seen := by
  induction records with
  | nil =>
    intro acc seen hinv
    simp [dedupGo, specFirstByKey]
  | cons r rest ih =>
    intro acc seen hinv
    rcases hk : acc.lookup (checksum r.seq.chars) with _ | ids
    · have hseen : checksum r.seq.chars ∉ seen := by
        intro hmem
        obtain ⟨ids, hids, _⟩ := (hinv _).1 hmem
        rw [hk] at hids
        exact Option.noConfusion hids
      have hinv' : ∀ k, k ∈ checksum r.seq.chars :: seen ↔
          ∃ ids, (acc ++ [(checksum r.seq.chars, [r.id])]).lookup k = some ids ∧
            ids ≠ [] := by
        intro k
        rw [lookup_append]
        by_cases hkk : k = checksum r.seq.chars
        · subst hkk
          have hone : List.lookup (checksum r.seq.chars)
              [(checksum r.seq.chars, [r.id])] = some [r.id] := by
            simp [List.lookup]
          simp [hk, hone]
        · have hb : (k == checksum r.seq.chars) = false := by simp [hkk]
          have hone : List.lookup k [(checksum r.seq.chars, [r.id])] = none := by
            simp [List.lookup, hb]
          simp [hone, hkk, hinv k]
      simp [dedupGo, hk, specFirstByKey, hseen, ih _ _ hinv']
    · have hmem : checksum r.seq.chars ∈ seen ↔ ids ≠ [] := by
        rw [hinv]
        constructor
        · rintro ⟨ids', hids', hne⟩
          rw [hk] at hids'
          cases Option.some.inj hids'
          exact hne
        · intro hne
          exact ⟨ids, hk, hne⟩
      by_cases hids : ids = []
      · subst hids
        have hseen : checksum r.seq.chars ∉ seen := by simp [hmem]
        have hinv' : ∀ k, k ∈ checksum r.seq.chars :: seen ↔
            ∃ ids, (assocUpdate acc (checksum r.seq.chars) [r.id]).lookup k =
              some ids ∧ ids ≠ [] := by
          intro k
          rw [lookup_assocUpdate]
          by_cases hkk : k = checksum r.seq.chars
          · subst hkk
            simp [hk]
          · simp [hkk, hinv k]
        have hred := ih (assocUpdate acc (checksum r.seq.chars) [r.id])
          (checksum r.seq.chars :: seen) hinv'
        simp [dedupGo, hk, specFirstByKey, hseen] at hred ⊢
        exact hred
      · have hseen : checksum r.seq.chars ∈ seen := hmem.2 hids
        have hinv' : ∀ k, k ∈ seen ↔
            ∃ ids', (assocUpdate acc (checksum r.seq.chars)
              (ids ++ [r.id])).lookup k = some ids' ∧ ids' ≠ [] := by
          intro k
          rw [lookup_assocUpdate]
          by_cases hkk : k = checksum r.seq.chars
          · subst hkk
            simp [hk, hseen]
          · simp [hkk, hinv k]
        have hempty : ids.isEmpty = false := by
          cases ids
          · exact absurd rfl hids
          · rfl
        have hred := ih (assocUpdate acc (checksum r.seq.chars) (ids ++ [r.id]))
          seen hinv'
        simp [dedupGo, hk, specFirstByKey, hseen, hempty] at hred ⊢
        exact hred

theorem dedupGo_snd (checksum : List Char → String) (records : List SeqRecord) :
    ∀ (acc : List (String × List String)) (k : String),
      ((dedupGo checksum records acc).2).lookup k =
        (match acc.lookup k with
         | some ids => some (ids ++
             (records.filter (fun r => checksum r.seq.chars = k)).map (fun r => r.id))
         | none =>
           if (records.filter (fun r => checksum r.seq.chars = k)).map
               (fun r => r.id) = [] then none
           else some ((records.filter (fun r => checksum r.seq.chars = k)).map
             (fun r => r.id))) := by
  induction records with
  | nil =>
    intro acc k
    cases h : acc.lookup k <;> simp [dedupGo, h]
  | cons r rest ih =>
    intro acc k
    have hsnd : (dedupGo checksum (r :: rest) acc).2 =
        (dedupGo checksum rest
          (if (acc.lookup (checksum r.seq.chars)).isSome
           then assocUpdate acc (checksum r.seq.chars)
             (((acc.lookup (checksum r.seq.chars)).getD []) ++ [r.id])
           else acc ++ [(checksum r.seq.chars,
             ((acc.lookup (checksum r.seq.chars)).getD []) ++ [r.id])])).2 := by
      by_cases he : ((acc.lookup (checksum r.seq.chars)).getD []).isEmpty <;>
        simp [dedupGo, he]
    rw [hsnd]
    by_cases hkk : checksum r.seq.chars = k
    · subst hkk
      rcases hk : acc.lookup (checksum r.seq.chars) with _ | ids
      · rw [ih _ (checksum r.seq.chars)]
        have hacc' : (acc ++ [(checksum r.seq.chars, [r.id])]).lookup
            (checksum r.seq.chars) = some [r.id] := by
          rw [lookup_append, hk]
          simp [List.lookup]
        simp [hk, hacc', List.filter_cons]
      · rw [ih _ (checksum r.seq.chars)]
        have hacc' : (assocUpdate acc (checksum r.seq.chars)
            (ids ++ [r.id])).lookup (checksum r.seq.chars) =
              some (ids ++ [r.id]) := by
          rw [lookup_assocUpdate]
          simp [hk]
        simp [hk, hacc', List.filter_cons]
    · have hkne : ¬ k = checksum r.seq.chars := fun hcontra => hkk hcontra.symm
      rcases hk : acc.lookup (checksum r.seq.chars) with _ | ids
      · rw [ih _ k]
        have hacc' : (acc ++ [(checksum r.seq.chars, [r.id])]).lookup k =
            acc.lookup k := by
          rw [lookup_append]
          have hb : (k == checksum r.seq.chars) = false := by simp [hkne]
          simp [List.lookup, hb]
        simp [hk, hacc', List.filter_cons, hkk]
      · rw [ih _ k]
        have hacc' : (assocUpdate acc (checksum r.seq.chars)
            (ids ++ [r.id])).lookup k = acc.lookup k := by
          rw [lookup_assocUpdate]
          simp [hkne]
        simp [hk, hacc', List.filter_cons, hkk]

/-- C3: `deduplicate_sequences` emits exactly the first record of each
distinct checksum key, in input order, suppressing later records with
an already-seen key; and the groups available to the side report map
each seen key to the full, input-ordered list of the ids of all records
(emitted and suppressed) whose sequence has that key. -/
theorem deduplicate_sequences_spec (checksum : List Char → String)
    (records : List SeqRecord) :
    (deduplicate_sequences checksum records).1 =
      specFirstByKey checksum records [] ∧
    ∀ key : String,
      ((deduplicate_sequences checksum records).2).lookup key =
        (if (records.filter (fun r => checksum r.seq.chars = key)).map
            (fun r => r.id) = [] then none
         else some ((records.filter (fun r => checksum r.seq.chars = key)).map
           (fun r => r.id))) := by
  constructor
  · exact dedupGo_fst checksum records [] [] (by simp)
  · intro key
    have h := dedupGo_snd checksum records [] key
    simpa using h

/-- The numeric value of a digit run, as Python int() computes it. -/
def digitsToNat (ds : List Char) : Nat :=
  ds.foldl (fun n c => 10 * n + (c.toNat - 48)) 0

/-- Matching the tail `\d+-\d+` of the strip_range regex against the
text following a chosen '/': the digit runs are maximal (greedy with a
literal after them) and text after the stop digits is permitted, since
re.match does not anchor the end of the pattern. -/
def matchSlash (after : List Char) : Option (Nat × Nat) :=
  let d1 := after.takeWhile (fun c => c.isDigit)
  let rest1 := after.dropWhile (fun c => c.isDigit)
  if d1.isEmpty then none
  else
    match rest1 with
    | [] => none
    | c :: rest2 =>
      if c = '-' then
        let d2 := rest2.takeWhile (fun x => x.isDigit)
        if d2.isEmpty then none else some (digitsToNat d1, digitsToNat d2)
      else none

/-- The match of `(?P<id>.*)\/(?P<start>\d+)\-(?P<stop>\d+)` under
re.match semantics: anchored at the start only, with a greedy `.*`, so
the latest '/' followed by nonempty digit runs around a '-' wins and
any text after the stop digits is ignored. Because a dot in a Python
regex matches any character except a newline, the id group (the text
before the chosen '/') must be free of the newline character. Returns
the id group with the start and stop values. -/
def stripRangeMatch (s : List Char) : Option (List Char × Nat × Nat) :=
  ((List.range s.length).reverse.filterMap (fun i =>
    if s[i]? = some '/' ∧ '\n' ∉ s.take i then
      (matchSlash (s.drop (i + 1))).map (fun p => (s.take i, p.1, p.2))
    else none)).head?

/-- `strip_range(records)` (transform.py 461-480): when the regex
matches the id and `start > 0 and start <= stop`, the id becomes the id
group; the output record is built from the old sequence and the new id
with the description cleared, in every case. -/
def strip_range (records : List SeqRecord) : List SeqRecord :=
  records.map (fun r =>
    let name :=
      match stripRangeMatch r.id.data with
      | some (sequence_id, start, stop) =>
        if 0 < start ∧ start ≤ stop then String.mk sequence_id else r.id
      | none => r.id
    ⟨r.seq, name, unknownName, "", [], []⟩)

/-- The claim's pattern `<name>/<start>-<stop>` read as a match of the
whole id: the id decomposes exactly into a name, a '/', a nonempty
digit run, a '-', and a nonempty digit run reaching the end. -/
def idMatchesRangePattern (s : List Char) : Prop :=
  ∃ (name d1 d2 : List Char),
    s = name ++ '/' :: (d1 ++ '-' :: d2) ∧
    d1 ≠ [] ∧ (∀ c ∈ d1, c.isDigit) ∧ d2 ≠ [] ∧ (∀ c ∈ d2, c.isDigit)

theorem matchSlash_sound (after : List Char) (start stop : Nat)
    (h : matchSlash after = some (start, stop)) :
    ∃ d1 d2 tail, after = d1 ++ '-' :: (d2 ++ tail) ∧
      d1 ≠ [] ∧ (∀ c ∈ d1, c.isDigit) ∧ d2 ≠ [] ∧ (∀ c ∈ d2, c.isDigit) ∧
      start = digitsToNat d1 ∧ stop = digitsToNat d2 := by
  by_cases h1 : (after.takeWhile (fun c => c.isDigit)).isEmpty
  · simp [matchSlash, h1] at h
  · rcases hrest : after.dropWhile (fun c => c.isDigit) with _ | ⟨c, rest2⟩
    · simp [matchSlash, h1, hrest] at h
    · by_cases hc : c = '-'
      · subst hc
        by_cases h2 : (rest2.takeWhile (fun x => x.isDigit)).isEmpty
        · simp [matchSlash, h1, hrest, h2] at h
        · simp [matchSlash, h1, hrest, h2] at h
          refine ⟨after.takeWhile (fun c => c.isDigit),
            rest2.takeWhile (fun x => x.isDigit),
            rest2.dropWhile (fun x => x.isDigit), ?_, ?_, ?_, ?_, ?_, ?_, ?_⟩
          · conv_lhs => rw [(List.takeWhile_append_dropWhile
              (fun c => c.isDigit) after).symm]
            rw [hrest, List.takeWhile_append_dropWhile]
          · simpa using h1
          · intro c hc
            exact List.mem_takeWhile_imp hc
          · simpa using h2
          · intro c hc
            exact List.mem_takeWhile_imp hc
          · exact h.1.symm
          · exact h.2.symm
      · simp [matchSlash, h1, hrest, hc] at h

theorem stripRangeMatch_sound (s : List Char) (sequence_id : List Char)
    (start stop : Nat)
    (h : stripRangeMatch s = some (sequence_id, start, stop)) :
    ∃ d1 d2 tail, s = sequence_id ++ '/' :: (d1 ++ '-' :: (d2 ++ tail)) ∧
      '\n' ∉ sequence_id ∧
      d1 ≠ [] ∧ (∀ c ∈ d1, c.isDigit) ∧ d2 ≠ [] ∧ (∀ c ∈ d2, c.isDigit) ∧
      start = digitsToNat d1 ∧ stop = digitsToNat d2 := by
  unfold stripRangeMatch at h
  rcases hl : (List.range s.length).reverse.filterMap (fun i =>
      if s[i]? = some '/' ∧ '\n' ∉ s.take i then
        (matchSlash (s.drop (i + 1))).map (fun p => (s.take i, p.1, p.2))
      else none) with _ | ⟨x, xs⟩
  · rw [hl] at h
    simp at h
  · rw [hl] at h
    simp at h
    have hx : x ∈ (List.range s.length).reverse.filterMap (fun i =>
        if s[i]? = some '/' ∧ '\n' ∉ s.take i then
          (matchSlash (s.drop (i + 1))).map (fun p => (s.take i, p.1, p.2))
        else none) := by
      rw [hl]
      exact List.mem_cons_self x xs
    obtain ⟨i, _, hfn⟩ := List.mem_filterMap.1 hx
    subst h
    by_cases hcond : s[i]? = some '/' ∧ '\n' ∉ s.take i
    · rw [if_pos hcond] at hfn
      obtain ⟨hslash, hnl⟩ := hcond
      obtain ⟨p, hp, hval⟩ := Option.map_eq_some'.1 hfn
      obtain ⟨d1, d2, tail, hafter, hd1ne, hd1, hd2ne, hd2, hstart, hstop⟩ :=
        matchSlash_sound (s.drop (i + 1)) p.1 p.2 (by rw [hp])
      have hi : i < s.length := by
        by_contra hge
        rw [List.getElem?_eq_none (by omega)] at hslash
        exact Option.noConfusion hslash
      have hchar : s[i] = '/' := by
        have := List.getElem?_eq_some_iff.1 hslash
        obtain ⟨_, hc⟩ := this
        exact hc
      have hsplit : s = s.take i ++ '/' :: s.drop (i + 1) := by
        conv_lhs => rw [(List.take_append_drop i s).symm]
        rw [List.drop_eq_getElem_cons hi, hchar]
      have hfst : sequence_id = s.take i := congrArg Prod.fst hval.symm
      refine ⟨d1, d2, tail, ?_, ?_, hd1ne, hd1, hd2ne, hd2, ?_, ?_⟩
      · rw [hsplit, hafter, hfst]
      · rw [hfst]
        exact hnl
      · have := congrArg (fun q => q.2.1) hval
        simpa [hstart] using this.symm
      · have := congrArg (fun q => q.2.2) hval
        simpa [hstop] using this.symm
    · rw [if_neg hcond] at hfn
      exact Option.noConfusion hfn

/-- C4 (amended): `strip_range` always clears the description and keeps
the sequence; the id is rewritten to the name group exactly when the
greedy prefix match of `<name>/<start>-<stop>` (trailing text after the
stop digits permitted; the name group unable to span a newline, per
re.match and dot semantics) succeeds with `start` positive and
`start <= stop`, and is otherwise unchanged. Any successful match
decomposes the id into a newline-free name, '/', digit run, '-', digit
run and arbitrary trailing text. -/
theorem strip_range_spec (records : List SeqRecord) (i : Nat) (r : SeqRecord)
    (h : records[i]? = some r) :
    ∃ r', (strip_range records)[i]? = some r' ∧
      r'.description = "" ∧ r'.seq = r.seq ∧
      (stripRangeMatch r.id.data = none → r'.id = r.id) ∧
      ∀ sequence_id start stop,
        stripRangeMatch r.id.data = some (sequence_id, start, stop) →
        (∃ d1 d2 tail,
          r.id.data = sequence_id ++ '/' :: (d1 ++ '-' :: (d2 ++ tail)) ∧
          '\n' ∉ sequence_id ∧
          d1 ≠ [] ∧ (∀ c ∈ d1, c.isDigit) ∧ d2 ≠ [] ∧ (∀ c ∈ d2, c.isDigit) ∧
          start = digitsToNat d1 ∧ stop = digitsToNat d2) ∧
        r'.id = (if 0 < start ∧ start ≤ stop then String.mk sequence_id
                 else r.id) := by
  refine ⟨⟨r.seq,
      (match stripRangeMatch r.id.data with
       | some (sequence_id, start, stop) =>
         if 0 < start ∧ start ≤ stop then String.mk sequence_id else r.id
       | none => r.id),
      unknownName, "", [], []⟩, ?_, rfl, rfl, ?_, ?_⟩
  · rw [strip_range, List.getElem?_map, h, Option.map_some']
  · intro hnone
    simp only [hnone]
  · intro sequence_id start stop hsome
    exact ⟨stripRangeMatch_sound r.id.data sequence_id start stop hsome,
      by simp only [hsome]⟩

def w4Rec : SeqRecord :=
  ⟨⟨['A', 'C'], defaultAlphabet⟩, "seq1/5-10", unknownName, "seq1/5-10 x", [], []⟩

/-- Witness for `strip_range_spec`: on id seq1/5-10 the range is
stripped to seq1 and the description is cleared. -/
theorem strip_range_spec_witness :
    [w4Rec][0]? = some w4Rec ∧
    ∃ r', (strip_range [w4Rec])[0]? = some r' ∧
      r'.description = "" ∧ r'.seq = w4Rec.seq ∧
      (stripRangeMatch w4Rec.id.data = none → r'.id = w4Rec.id) ∧
      ∀ sequence_id start stop,
        stripRangeMatch w4Rec.id.data = some (sequence_id, start, stop) →
        (∃ d1 d2 tail,
          w4Rec.id.data = sequence_id ++ '/' :: (d1 ++ '-' :: (d2 ++ tail)) ∧
          '\n' ∉ sequence_id ∧
          d1 ≠ [] ∧ (∀ c ∈ d1, c.isDigit) ∧ d2 ≠ [] ∧ (∀ c ∈ d2, c.isDigit) ∧
          start = digitsToNat d1 ∧ stop = digitsToNat d2) ∧
        r'.id = (if 0 < start ∧ start ≤ stop then String.mk sequence_id
                 else w4Rec.id) :=
  ⟨rfl, strip_range_spec [w4Rec] 0 w4Rec rfl⟩

def w4nlRec : SeqRecord :=
  ⟨⟨['G'], defaultAlphabet⟩, "x\ny/1-2", unknownName, "d", [], []⟩

/-- Regression check for the dot-does-not-match-newline rule: on an id
whose only '/' lies after a newline, re.match fails, so strip_range
leaves the id unchanged (clearing only the description). -/
theorem strip_range_newline_no_match :
    stripRangeMatch ("x\ny/1-2".data) = none ∧
    (strip_range [w4nlRec]).map (fun r => r.id) = ["x\ny/1-2"] ∧
    (strip_range [w4nlRec]).map (fun r => r.description) = [""] := by decide

def cex4Rec : SeqRecord :=
  ⟨⟨['G'], defaultAlphabet⟩, "a/1-2x", unknownName, "d", [], []⟩

/-- Counterexample to C4 as stated: the id a/1-2x does not match the
pattern `<name>/<start>-<stop>` as a whole (the trailing x is not part
of any integer stop), yet strip_range rewrites the id to a instead of
leaving it unchanged. -/
theorem strip_range_cex :
    ¬ idMatchesRangePattern ("a/1-2x".data) ∧
    (strip_range [cex4Rec]).map (fun r => r.id) = ["a"] ∧
    cex4Rec.id = "a/1-2x" ∧ "a" ≠ "a/1-2x" := by
  refine ⟨?_, by decide, rfl, by decide⟩
  rintro ⟨name, d1, d2, hs, hd1ne, hd1, hd2ne, hd2⟩
  rcases List.eq_nil_or_concat d2 with hnil | ⟨d2h, clast, hconcat⟩
  · exact hd2ne hnil
  · have hlast : ("a/1-2x".data).getLast? = some clast := by
      rw [hs, hconcat, List.concat_eq_append]
      rw [show name ++ '/' :: (d1 ++ '-' :: (d2h ++ [clast])) =
        (name ++ '/' :: (d1 ++ '-' :: d2h)) ++ [clast] by simp]
      exact List.getLast?_concat _
    have hx : ("a/1-2x".data).getLast? = some 'x' := by decide
    rw [hx] at hlast
    have hcl : clast = 'x' := (Option.some.inj hlast).symm
    have hdig : clast.isDigit := hd2 clast (by simp [hconcat])
    rw [hcl] at hdig
    exact absurd hdig (by decide)

/-- `isolate_region(sequences, start, end, gap_char)` (transform.py
152-168, gap_char defaulting to the dash): raises ValueError when end <= start; otherwise each record's
sequence becomes start gap chars, the Python slice seq[start:end], and
`gap_char * (len(seq) - end)` trailing gap chars (empty when the count
is non-positive, matching truncated Nat subtraction); the record keeps
its other fields and the sequence keeps its alphabet. -/
def isolate_region (sequences : List SeqRecord) (start stop : Nat)
    (gap_char : Char) : Except String (List SeqRecord) :=
  if stop ≤ start then
    .error ("start of slice must precede end (" ++ toString stop ++ " !> " ++
      toString start ++ ")")
  else
    .ok (sequences.map (fun r =>
      ⟨⟨List.replicate start gap_char ++
          ((r.seq.chars.drop start).take (stop - start)) ++
          List.replicate (r.seq.chars.length - stop) gap_char,
        r.seq.alphabet⟩,
        r.id, r.name, r.description, r.annotations, r.letter_annotations⟩))

/-- C5 (amended): `isolate_region` fails with the invalid-range error
exactly when end <= start; on success every output sequence is start
gap characters, then the original symbols at positions [start, end),
then (original length - end) gap characters, and the total length is
unchanged for every record of length at least start (a record shorter
than start is padded out to length start instead). -/
theorem isolate_region_spec (sequences : List SeqRecord) (start stop : Nat)
    (gap_char : Char) :
    (stop ≤ start →
      ∃ msg, isolate_region sequences start stop gap_char = .error msg) ∧
    (start < stop →
      ∃ out, isolate_region sequences start stop gap_char = .ok out ∧
        List.Forall₂ (fun r o =>
          o.seq.chars = List.replicate start gap_char ++
            ((r.seq.chars.drop start).take (stop - start)) ++
            List.replicate (r.seq.chars.length - stop) gap_char ∧
          (start ≤ r.seq.chars.length →
            o.seq.chars.length = r.seq.chars.length) ∧
          o.id = r.id ∧ o.description = r.description) sequences out) := by
  constructor
  · intro h
    exact ⟨_, by rw [isolate_region, if_pos h]⟩
  · intro h
    refine ⟨_, by rw [isolate_region, if_neg (by omega)], ?_⟩
    induction sequences with
    | nil => exact List.Forall₂.nil
    | cons r rs ih =>
      refine List.Forall₂.cons ⟨rfl, ?_, rfl, rfl⟩ ih
      intro hle
      simp only [List.length_append, List.length_replicate, List.length_take,
        List.length_drop]
      omega

def cex5Rec : SeqRecord := ⟨⟨['A'], defaultAlphabet⟩, "c5", unknownName, "", [], []⟩

/-- Counterexample to C5 as stated: with start=2, end=5 (a valid range,
2 < 5) on a record of length 1, the output sequence is two gap
characters, so the total sequence length changes from 1 to 2. -/
theorem isolate_region_cex :
    (2 : Nat) < 5 ∧
    (isolate_region [cex5Rec] 2 5 '-').map
      (fun l => l.map (fun r => r.seq.chars)) = .ok [['-', '-']] ∧
    cex5Rec.seq.chars.length = 1 ∧ (['-', '-'] : List Char).length ≠ 1 :=
  ⟨by decide, rfl, rfl, by decide⟩

def w5Rec : SeqRecord :=
  ⟨⟨['A', 'C', 'G', 'T', 'A', 'C', 'G', 'T', 'A', 'C'], defaultAlphabet⟩,
    "w5", unknownName, "", [], []⟩

/-- Witness for `isolate_region_spec`: the failure half at end <= start
and the success half at start=2, end=5 on a length-10 record. -/
theorem isolate_region_spec_witness :
    (∃ msg, isolate_region [w5Rec] 5 2 '-' = .error msg) ∧
    (∃ out, isolate_region [w5Rec] 2 5 '-' = .ok out ∧
      List.Forall₂ (fun r o =>
        o.seq.chars = List.replicate 2 '-' ++
          ((r.seq.chars.drop 2).take (5 - 2)) ++
          List.replicate (r.seq.chars.length - 5) '-' ∧
        (2 ≤ r.seq.chars.length →
          o.seq.chars.length = r.seq.chars.length) ∧
        o.id = r.id ∧ o.description = r.description) [w5Rec] out) :=
  ⟨(isolate_region_spec [w5Rec] 5 2 '-').1 (by decide),
   (isolate_region_spec [w5Rec] 2 5 '-').2 (by decide)⟩

/-- The `CodonWarningDict` of transform.py 506-522: a defaultdict whose
missing-key handler returns `missing_char` for keys containing '-'
(warning on first access) and raises KeyError otherwise. The store is
the dict contents in insertion order. -/
structure CodonWarningDict where
  store : List (String × String)
  missing_char : String
deriving DecidableEq

/-- `dict[k] = v` (insert or overwrite), as used by `dict.update`. -/
def assocSet (l : List (String × String)) (k v : String) :
    List (String × String) :=
  if (l.lookup k).isSome then assocUpdate l k v else l ++ [(k, v)]

/-- `forward.update(table.forward_table)` from `translate`. -/
def cwdUpdate (d : CodonWarningDict) (entries : List (String × String)) :
    CodonWarningDict :=
  ⟨entries.foldl (fun s p => assocSet s p.1 p.2) d.store, d.missing_char⟩

/-- The codon table `translate` builds: a fresh `CodonWarningDict()`
(missing char X) updated with the genetic-code forward table, which is
an external collaborator and therefore a parameter. -/
def translateTable (forward_table : List (String × String)) : CodonWarningDict :=
  cwdUpdate ⟨[], "X"⟩ forward_table

/-- `table[key]`: present keys return their value; missing keys with a
'-' return `missing_char` (storing it, defaultdict-style, so later
lookups hit) and report whether the one-time warning fires; missing
keys without '-' raise KeyError. The result is the value, the updated
dict, and the warning flag. -/
def cwdGetItem (d : CodonWarningDict) (key : String) :
    Except String (String × CodonWarningDict × Bool) :=
  match d.store.lookup key with
  | some v => .ok (v, d, false)
  | none =>
    if key.data.contains '-' then
      .ok (d.missing_char,
        ⟨d.store ++ [(key, d.missing_char)], d.missing_char⟩,
        (d.store.lookup key).isNone)
    else .error key

/-- C6: in the codon table used by translate, an absent codon
containing the gap character '-' yields the sentinel X without failing,
warning exactly on its first lookup (the repeat lookup of the same
codon succeeds silently); an absent codon without a gap character fails
with a KeyError naming the codon. -/
theorem codon_lookup_spec (forward_table : List (String × String)) (key : String)
    (habsent : (translateTable forward_table).store.lookup key = none) :
    (key.data.contains '-' = true →
      ∃ d', cwdGetItem (translateTable forward_table) key = .ok ("X", d', true) ∧
        cwdGetItem d' key = .ok ("X", d', false)) ∧
    (key.data.contains '-' = false →
      cwdGetItem (translateTable forward_table) key = .error key) := by
  have hmiss : (translateTable forward_table).missing_char = "X" := rfl
  constructor
  · intro hgap
    refine ⟨⟨(translateTable forward_table).store ++ [(key, "X")], "X"⟩, ?_, ?_⟩
    · rw [cwdGetItem, habsent]
      simp [hgap, hmiss, habsent]
      simpa using hgap
    · have hlook : ((translateTable forward_table).store ++
          [(key, "X")]).lookup key = some "X" := by
        rw [lookup_append, habsent]
        simp [List.lookup]
      rw [cwdGetItem]
      simp only [hlook]
  · intro hngap
    rw [cwdGetItem, habsent]
    simp only [Bool.not_eq_true]
    rw [if_neg (by simpa using hngap)]

/-- Witness for `codon_lookup_spec` on a one-entry table: the gapped
codon A-A returns X (warning once), the ungapped codon TTT fails. -/
theorem codon_lookup_spec_witness :
    (∃ d', cwdGetItem (translateTable [("AAA", "K")]) "A-A" =
        .ok ("X", d', true) ∧
      cwdGetItem d' "A-A" = .ok ("X", d', false)) ∧
    cwdGetItem (translateTable [("AAA", "K")]) "TTT" = .error "TTT" :=
  ⟨(codon_lookup_spec [("AAA", "K")] "A-A" (by decide)).1 (by decide),
   (codon_lookup_spec [("AAA", "K")] "TTT" (by decide)).2 (by decide)⟩

/-- `record.lower()` as Biopython implements it: lowercase the sequence
characters, keep the alphabet and every other field. -/
def lowerRecord (r : SeqRecord) : SeqRecord :=
  ⟨⟨r.seq.chars.map Char.toLower, r.seq.alphabet⟩, r.id, r.name,
    r.description, r.annotations, r.letter_annotations⟩

/-- `record.upper()` as Biopython implements it. -/
def upperRecord (r : SeqRecord) : SeqRecord :=
  ⟨⟨r.seq.chars.map Char.toUpper, r.seq.alphabet⟩, r.id, r.name,
    r.description, r.annotations, r.letter_annotations⟩

/-- `lower_sequences(records)` (transform.py 192-199). -/
def lower_sequences (records : List SeqRecord) : List SeqRecord :=
  records.map lowerRecord

/-- `upper_sequences(records)` (transform.py 202-209). -/
def upper_sequences (records : List SeqRecord) : List SeqRecord :=
  records.map upperRecord

theorem char_toNat_ofNat_valid (n : Nat) (h : n.isValidChar) :
    (Char.ofNat n).toNat = n := by
  simp [Char.ofNat, h, Char.ofNatAux, Char.toNat, UInt32.toNat]

theorem toLower_toUpper (c : Char) : c.toUpper.toLower = c.toLower := by
  unfold Char.toUpper Char.toLower
  by_cases h : c.toNat ≥ 97 ∧ c.toNat ≤ 122
  · rw [if_pos h]
    have hv : (c.toNat - 32).isValidChar := Or.inl (by omega)
    have ht : (Char.ofNat (c.toNat - 32)).toNat = c.toNat - 32 :=
      char_toNat_ofNat_valid _ hv
    rw [if_pos (by omega : (Char.ofNat (c.toNat - 32)).toNat ≥ 65 ∧
      (Char.ofNat (c.toNat - 32)).toNat ≤ 90)]
    rw [if_neg (by omega : ¬ (c.toNat ≥ 65 ∧ c.toNat ≤ 90))]
    rw [ht]
    have harith : c.toNat - 32 + 32 = c.toNat := by omega
    rw [harith, Char.ofNat_toNat]
  · rw [if_neg h]

theorem lowerRecord_upperRecord (r : SeqRecord) :
    lowerRecord (upperRecord r) = lowerRecord r := by
  simp only [lowerRecord, upperRecord, List.map_map]
  have hfun : Char.toLower ∘ Char.toUpper = Char.toLower :=
    funext toLower_toUpper
  rw [hfun]

def cex7Rec : SeqRecord :=
  ⟨⟨['A', 'c'], defaultAlphabet⟩, "c7", unknownName, "", [], []⟩

/-- Counterexample to C7 as stated: a record whose sequence contains an
uppercase letter does not return to its original casing under
upper_sequences followed by lower_sequences; the sequence comes back
fully lowercased instead. -/
theorem case_roundtrip_cex :
    lower_sequences (upper_sequences [cex7Rec]) ≠ [cex7Rec] := by decide

/-- C7 (amended): applying upper_sequences and then lower_sequences
yields exactly the same stream as applying lower_sequences alone — the
sequences come back fully lowercased, not in their original casing;
only records whose sequence characters are unchanged by lowercasing
round-trip to their original form. -/
theorem case_roundtrip_spec (records : List SeqRecord) :
    lower_sequences (upper_sequences records) = lower_sequences records ∧
    ((∀ r ∈ records, ∀ c ∈ r.seq.chars, c.toLower = c) →
      lower_sequences (upper_sequences records) = records) := by
  have hpipe : lower_sequences (upper_sequences records) =
      lower_sequences records := by
    simp only [lower_sequences, upper_sequences, List.map_map]
    exact List.map_congr_left (fun r _ => lowerRecord_upperRecord r)
  refine ⟨hpipe, ?_⟩
  intro h
  rw [hpipe]
  rw [lower_sequences]
  have hid : ∀ r ∈ records, lowerRecord r = r := by
    intro r hr
    have hchars : r.seq.chars.map Char.toLower = r.seq.chars := by
      rw [List.map_congr_left (fun c hc => h r hr c hc)]
      exact List.map_id r.seq.chars
    simp [lowerRecord, hchars]
  rw [List.map_congr_left hid]
  exact List.map_id records

def w7Rec : SeqRecord :=
  ⟨⟨['a', 'c', 'g', 't'], defaultAlphabet⟩, "w7", unknownName, "", [], []⟩

/-- Witness for `case_roundtrip_spec`: the pipeline equals plain
lowercasing, and the already-lowercase record round-trips. -/
theorem case_roundtrip_spec_witness :
    lower_sequences (upper_sequences [w7Rec]) = lower_sequences [w7Rec] ∧
    lower_sequences (upper_sequences [w7Rec]) = [w7Rec] :=
  ⟨(case_roundtrip_spec [w7Rec]).1, (case_roundtrip_spec [w7Rec]).2 (by decide)⟩

/-- `prune_empty(records)` (transform.py 212-218): keep the records
whose sequence is not entirely the character '-'. -/
def prune_empty (records : List SeqRecord) : List SeqRecord :=
  records.filter (fun r => !(r.seq.chars.all (fun c => c == '-')))

def cex8Rec : SeqRecord :=
  ⟨⟨['.', '.'], defaultAlphabet⟩, "c8", unknownName, "", [], []⟩

/-- Counterexample to C8 as stated: a non-empty record made entirely of
gap characters from GAP_CHARS (dots) is kept by prune_empty, which
tests only for the dash. -/
theorem prune_empty_cex :
    cex8Rec.seq.chars ≠ [] ∧
    cex8Rec.seq.chars.all (fun c => GAP_CHARS.data.contains c) = true ∧
    prune_empty [cex8Rec] = [cex8Rec] := by decide

/-- C8 (amended): prune_empty drops exactly the records whose sequence
consists entirely of the dash character '-' (the dot, although listed
in GAP_CHARS, is not treated as a gap here), passing every other record
through unchanged and in their original order. -/
theorem prune_empty_spec (records : List SeqRecord) :
    List.Sublist (prune_empty records) records ∧
    ∀ r ∈ records, (r ∈ prune_empty records ↔
      ¬ (∀ c ∈ r.seq.chars, c = '-')) := by
  constructor
  · exact List.filter_sublist records
  · intro r hr
    rw [prune_empty, List.mem_filter]
    simp [hr]

def w8Rec : SeqRecord :=
  ⟨⟨['-', '-', '-'], defaultAlphabet⟩, "w8", unknownName, "", [], []⟩

/-- Witness for `prune_empty_spec`: the all-dash record is dropped. -/
theorem prune_empty_spec_witness :
    w8Rec ∈ [w8Rec] ∧
    (w8Rec ∈ prune_empty [w8Rec] ↔ ¬ (∀ c ∈ w8Rec.seq.chars, c = '-')) :=
  ⟨by decide, (prune_empty_spec [w8Rec]).2 w8Rec (by decide)⟩
